import Mathlib

set_option maxHeartbeats 1000000
set_option autoImplicit false

/-!
Shallow embedding of the WebRTC chat repository (C0neF/React_Project_1):

* `src/networking/webrtc` — `WebRTCConnection` (connection.ts) and `Room`
  (room.ts).  The JS `Map<string, _>` objects (`connections`, `users`) are
  embedded as association lists with JS-`Map` semantics (`set` updates in
  place or appends, `delete` removes, `get`/`has` find the entry); callback
  invocations and channel sends are made explicit as `Effect` lists.
* `src/app/routes/chat.tsx` — the identity-collision retry logic of
  `initializePeer`'s `error` handler (`retryCount` / `MAX_RETRIES`).
-/

/-- Mirrors `UserInfo` of room.ts: `{ id: string; username: string }`. -/
structure UserInfo where
  id : String
  username : String
deriving DecidableEq, Repr

/-- Mirrors `Message` of connection.ts: `{ id, sender, content, timestamp }`
(`timestamp: number` is `Date.now()`, embedded as `Nat`). -/
structure Message where
  id : Nat
  sender : String
  content : String
  timestamp : Nat
deriving DecidableEq, Repr

/-- Mirrors the tagged union `RoomMessage` of room.ts
(`JoinMessage | LeaveMessage | ChatMessage | UserListMessage`). -/
inductive RoomMsg where
  | join (user : UserInfo)
  | leave (userId : String)
  | chat (m : Message)
  | userList (users : List UserInfo)
deriving DecidableEq, Repr

/-! ### JS `Map` semantics over association lists -/

/-- Model of `Map.get`: first entry with the given key. -/
def mapGet {α : Type} : List (String × α) → String → Option α
  | [], _ => none
  | p :: rest, k => if p.1 = k then some p.2 else mapGet rest k

/-- Model of `Map.set`: update the entry in place if the key is present, else append. -/
def mapSet {α : Type} : List (String × α) → String → α → List (String × α)
  | [], k, v => [(k, v)]
  | p :: rest, k, v => if p.1 = k then (k, v) :: rest else p :: mapSet rest k v

/-- Model of `Map.delete`: remove the entry with the given key. -/
def mapDelete {α : Type} : List (String × α) → String → List (String × α)
  | [], _ => []
  | p :: rest, k => if p.1 = k then mapDelete rest k else p :: mapDelete rest k

/-- Model of `Map.has`. -/
def mapHas {α : Type} (m : List (String × α)) (k : String) : Bool :=
  (mapGet m k).isSome

/-- Model of `Array.from(map.values())` (insertion order). -/
def mapValues {α : Type} (m : List (String × α)) : List α :=
  m.map (fun p => p.2)

/-- Membership in the key set of the `connections` map. -/
def memberStr : List String → String → Bool
  | [], _ => false
  | x :: xs, k => if x = k then true else memberStr xs k

/-- Model of `connections.delete(key)` on the key list. -/
def removeStr : List String → String → List String
  | [], _ => []
  | x :: xs, k => if x = k then removeStr xs k else x :: removeStr xs k

/-- Model of `connections.set(key, conn)` on the key list (no duplicate keys). -/
def addStr (l : List String) (k : String) : List String :=
  if memberStr l k then l else l ++ [k]

theorem mapGet_set {α : Type} (m : List (String × α)) (k k2 : String) (v : α) :
    mapGet (mapSet m k v) k2 = if k = k2 then some v else mapGet m k2 := by
  induction m with
  | nil => simp [mapSet, mapGet]
  | cons p rest ih =>
    by_cases hp : p.1 = k
    · simp only [mapSet, if_pos hp, mapGet]
      by_cases hk : k = k2
      · simp [hk]
      · have hpk2 : ¬ p.1 = k2 := by rw [hp]; exact hk
        simp [hk, hpk2]
    · simp only [mapSet, if_neg hp, mapGet]
      by_cases hpk2 : p.1 = k2
      · have hk : ¬ k = k2 := by rw [← hpk2]; exact fun h => hp h.symm
        simp [hpk2, hk]
      · simp [hpk2, ih]

theorem mapGet_delete {α : Type} (m : List (String × α)) (k k2 : String) :
    mapGet (mapDelete m k) k2 = if k = k2 then none else mapGet m k2 := by
  induction m with
  | nil => simp [mapDelete, mapGet]
  | cons p rest ih =>
    by_cases hp : p.1 = k
    · simp only [mapDelete, if_pos hp, ih]
      by_cases hk : k = k2
      · simp [hk]
      · have hpk2 : ¬ p.1 = k2 := by rw [hp]; exact hk
        simp [mapGet, hk, hpk2]
    · simp only [mapDelete, if_neg hp, mapGet]
      by_cases hpk2 : p.1 = k2
      · have hk : ¬ k = k2 := by rw [← hpk2]; exact fun h => hp h.symm
        simp [hpk2, hk]
      · simp [hpk2, ih]

theorem mapHas_iff {α : Type} (m : List (String × α)) (k : String) :
    mapHas m k = true ↔ ∃ v, mapGet m k = some v := by
  unfold mapHas
  cases h : mapGet m k <;> simp [h]

theorem mapGet_mem {α : Type} (m : List (String × α)) (k : String) (v : α)
    (h : mapGet m k = some v) : (k, v) ∈ m := by
  induction m with
  | nil => simp [mapGet] at h
  | cons p rest ih =>
    by_cases hp : p.1 = k
    · simp only [mapGet, if_pos hp] at h
      have hv : p.2 = v := Option.some.inj h
      have hpv : p = (k, v) := by cases p; simp_all
      rw [← hpv]
      exact List.mem_cons_self p rest
    · simp only [mapGet, if_neg hp] at h
      exact List.mem_cons_of_mem p (ih h)

theorem memberStr_iff (l : List String) (k : String) :
    memberStr l k = true ↔ k ∈ l := by
  induction l with
  | nil => simp [memberStr]
  | cons x xs ih =>
    by_cases hx : x = k
    · simp [memberStr, hx]
    · have hkx : ¬ k = x := fun h => hx h.symm
      simp [memberStr, hx, ih, hkx]

theorem mem_removeStr (l : List String) (k k2 : String) :
    k2 ∈ removeStr l k ↔ k2 ∈ l ∧ k2 ≠ k := by
  induction l with
  | nil => simp [removeStr]
  | cons x xs ih =>
    by_cases hx : x = k
    · subst hx
      simp only [removeStr, if_pos rfl, List.mem_cons, ih]
      tauto
    · simp only [removeStr, if_neg hx, List.mem_cons, ih]
      constructor
      · rintro (rfl | ⟨h1, h2⟩)
        · exact ⟨Or.inl rfl, hx⟩
        · exact ⟨Or.inr h1, h2⟩
      · rintro ⟨rfl | h1, h2⟩
        · exact Or.inl rfl
        · exact Or.inr ⟨h1, h2⟩

/-! ### Room (room.ts) -/

/-- Observable actions of `Room`: callback invocations (`options.onJoin`,
`options.onLeave`, `options.onMessage`) and frames handed to the underlying
connection (`connection.sendMessage(peer, frame)`; a
`connection.broadcast(frame)` performs one `sendTo` per connected peer). -/
inductive Effect where
  | onJoin (peerId : String) (username : String)
  | onLeave (peerId : String)
  | onMessage (m : Message) (fromPeerId : String)
  | sendTo (peerId : String) (frame : RoomMsg)
deriving DecidableEq, Repr

/-- State of a `Room` instance: the `users` map, the local `userInfo`, the
keys of the underlying connection's `connections` map, the
`messageIdCounter`, and `options.userId` (used by `join()`). -/
structure RoomState where
  users : List (String × UserInfo)
  userInfo : UserInfo
  conns : List String
  messageIdCounter : Nat
  optionsUserId : String
deriving DecidableEq, Repr

/-- The `Room` constructor: stores `options`, sets
`userInfo = { id: options.userId, username: options.username }` and seeds
`users` with the local entry. -/
def mkRoom (userId : String) (username : String) : RoomState :=
  { users := [(userId, UserInfo.mk userId username)]
    userInfo := UserInfo.mk userId username
    conns := []
    messageIdCounter := 0
    optionsUserId := userId }

/-- Model of `connection.broadcast(frame)` as seen from the room: one send per entry
of the `connections` map (send failures are caught inside
`WebRTCConnection.broadcast` and do not affect the room). -/
def broadcastEffects (s : RoomState) (frame : RoomMsg) : List Effect :=
  s.conns.map (fun p => Effect.sendTo p frame)

/-- Model of `Room.handleJoinMessage`: `users.set(user.id, user)`, invoke
`options.onJoin`, then `broadcastJoinMessage(user)` — which returns early
when `user.id === this.userInfo.id` and otherwise calls
`connection.broadcast` (over every connected channel). -/
def Room.handleJoinMessage (s : RoomState) (user : UserInfo) : RoomState × List Effect :=
  let s2 := { s with users := mapSet s.users user.id user }
  (s2, Effect.onJoin user.id user.username ::
        (if user.id = s2.userInfo.id then [] else broadcastEffects s2 (RoomMsg.join user)))

/-- Model of `Room.handleLeaveMessage`: if `users.has(userId)`, delete it and invoke
`options.onLeave`; otherwise do nothing. -/
def Room.handleLeaveMessage (s : RoomState) (userId : String) : RoomState × List Effect :=
  if mapHas s.users userId then
    ({ s with users := mapDelete s.users userId }, [Effect.onLeave userId])
  else (s, [])

/-- Model of `Room.handleChatMessage`: forward to `options.onMessage`. -/
def Room.handleChatMessage (s : RoomState) (m : Message) (fromPeerId : String) :
    RoomState × List Effect :=
  (s, [Effect.onMessage m fromPeerId])

/-- Model of `Room.handleUserListMessage`: `users.forEach(...)` — each listed user
whose id is not yet a key is inserted and `options.onJoin` invoked;
already-present keys are skipped. -/
def Room.handleUserListMessage : RoomState → List UserInfo → RoomState × List Effect
  | s, [] => (s, [])
  | s, u :: rest =>
    if mapHas s.users u.id then Room.handleUserListMessage s rest
    else
      let s2 := { s with users := mapSet s.users u.id u }
      let r := Room.handleUserListMessage s2 rest
      (r.1, Effect.onJoin u.id u.username :: r.2)

/-- Incoming wire data, as seen by `Room.handleRoomMessage`.  `nullData`
is a falsy `data`; `untyped` is an object whose `type` field is missing or
falsy; `unknownType ty` is an object whose truthy `type` is none of
JOIN/LEAVE/CHAT/USER_LIST (the `default` branch of the switch); `valid m`
is a recognized tag together with the payload the code casts it to. -/
inductive WireData where
  | nullData
  | untyped
  | unknownType (ty : String)
  | valid (m : RoomMsg)
deriving DecidableEq, Repr

/-- Model of `Room.handleRoomMessage`: drop falsy data and data without a truthy
`type` (log only), dispatch the four recognized tags, and log-and-ignore
unknown tags (the `default` branch). -/
def Room.handleRoomMessage (s : RoomState) (data : WireData) (fromPeerId : String) :
    RoomState × List Effect :=
  match data with
  | WireData.nullData => (s, [])
  | WireData.untyped => (s, [])
  | WireData.unknownType _ => (s, [])
  | WireData.valid (RoomMsg.join user) => Room.handleJoinMessage s user
  | WireData.valid (RoomMsg.leave userId) => Room.handleLeaveMessage s userId
  | WireData.valid (RoomMsg.chat m) => Room.handleChatMessage s m fromPeerId
  | WireData.valid (RoomMsg.userList users) => Room.handleUserListMessage s users

/-- The `onConnect` handler of `Room.setupConnectionEvents`: the connection
has just stored the new channel (`connections.set` runs in the `open`
listener before the callback); the room then sends its own JOIN and the
current USER_LIST snapshot to the new peer. -/
def Room.onConnectEvent (s : RoomState) (peerId : String) : RoomState × List Effect :=
  let s2 := { s with conns := addStr s.conns peerId }
  (s2, [Effect.sendTo peerId (RoomMsg.join s2.userInfo),
        Effect.sendTo peerId (RoomMsg.userList (mapValues s2.users))])

/-- The `onDisconnect` handler of `Room.setupConnectionEvents`: the
connection's `close` listener has already run `connections.delete(peerId)`
before invoking the callback; then, if `peerId` is a known member, the room
deletes it, invokes `options.onLeave` and broadcasts LEAVE to the remaining
channels. -/
def Room.onDisconnectEvent (s : RoomState) (peerId : String) : RoomState × List Effect :=
  let s2 := { s with conns := removeStr s.conns peerId }
  if mapHas s2.users peerId then
    ({ s2 with users := mapDelete s2.users peerId },
      Effect.onLeave peerId :: broadcastEffects s2 (RoomMsg.leave peerId))
  else (s2, [])

/-- Model of `Room.getNextMessageId`: `++this.messageIdCounter`. -/
def Room.getNextMessageId (s : RoomState) : RoomState × Nat :=
  ({ s with messageIdCounter := s.messageIdCounter + 1 }, s.messageIdCounter + 1)

/-- Model of `Room.sendMessage(content)`: build the Message from the next id, the
local display name and `Date.now()` (passed as `now`), broadcast it in a
CHAT frame and return it. -/
def Room.sendMessage (s : RoomState) (content : String) (now : Nat) :
    RoomState × Message × List Effect :=
  let r := Room.getNextMessageId s
  let message : Message :=
    { id := r.2, sender := s.userInfo.username, content := content, timestamp := now }
  (r.1, message, broadcastEffects r.1 (RoomMsg.chat message))

/-- The membership-updating part of `Room.join()` once `initialize()` has
resolved with `peerId`: if the assigned id differs from `userInfo.id`, set
`userInfo.id = peerId`, `users.delete(options.userId)` and
`users.set(peerId, userInfo)`.  (The subsequent `connect(roomId)` call does
not touch the membership map.) -/
def Room.joinWithAssignedId (s : RoomState) (peerId : String) : RoomState :=
  if peerId = s.userInfo.id then s
  else
    let newInfo : UserInfo := { id := peerId, username := s.userInfo.username }
    { s with userInfo := newInfo
             users := mapSet (mapDelete s.users s.optionsUserId) peerId newInfo }

/-- Model of `Room.leave()`: `connection.disconnect()` (clears all channels) and
`users.clear()`. -/
def Room.leave (s : RoomState) : RoomState :=
  { s with conns := [], users := [] }

/-- Everything that can mutate a live room between construction and
`leave()`: an incoming frame, a channel connect/disconnect event, a local
`sendMessage`, or the identity fix-up inside `join()`. -/
inductive RoomEvent where
  | frame (data : WireData) (fromPeerId : String)
  | channelConnect (peerId : String)
  | channelDisconnect (peerId : String)
  | localSend (content : String) (now : Nat)
  | joinAssigned (peerId : String)
deriving DecidableEq, Repr

/-- One step of the room's event loop (state component). -/
def roomEventStep (s : RoomState) : RoomEvent → RoomState
  | RoomEvent.frame data fromPeerId => (Room.handleRoomMessage s data fromPeerId).1
  | RoomEvent.channelConnect peerId => (Room.onConnectEvent s peerId).1
  | RoomEvent.channelDisconnect peerId => (Room.onDisconnectEvent s peerId).1
  | RoomEvent.localSend content now => (Room.sendMessage s content now).1
  | RoomEvent.joinAssigned peerId => Room.joinWithAssignedId s peerId

/-! ### WebRTCConnection (connection.ts) -/

/-- Mirrors `enum ConnectionState`. -/
inductive ConnectionState where
  | disconnected
  | connecting
  | connected
  | failed
deriving DecidableEq, Repr

/-- State of a `WebRTCConnection`: the keys of the `connections` map,
whether `this.peer` is non-null, and `this.state`. -/
structure ConnState where
  connections : List String
  peerAlive : Bool
  state : ConnectionState
deriving DecidableEq, Repr

/-- Observable actions of `WebRTCConnection`: closing one channel
(`conn.close()`), destroying the peer (`peer.destroy()`), and the outcome
of one `conn.send(message)` (which either succeeds or throws and is
caught). -/
inductive ConnEffect where
  | closeChannel (peerId : String)
  | destroyPeer
  | sent (peerId : String)
  | sendFailed (peerId : String)
deriving DecidableEq, Repr

/-- Model of `WebRTCConnection.sendMessage(peerId, message)`: returns `false` when no
channel is registered for `peerId`; otherwise attempts `conn.send`,
returning `false` (after catching) when it throws and `true` otherwise.
`fails p = true` models "`conn.send` throws on the channel to `p`". -/
def WebRTCConnection.sendMessage (s : ConnState) (fails : String → Bool) (peerId : String) :
    Bool × List ConnEffect :=
  if memberStr s.connections peerId then
    if fails peerId then (false, [ConnEffect.sendFailed peerId])
    else (true, [ConnEffect.sent peerId])
  else (false, [])

/-- Model of `WebRTCConnection.broadcast(message)`: `connections.forEach` with a
per-peer `try`/`catch`; the function's return value is `void` (the first
component), the second component records what happened on each channel. -/
def WebRTCConnection.broadcast (s : ConnState) (fails : String → Bool) :
    Unit × List ConnEffect :=
  ((), s.connections.map (fun p =>
        if fails p then ConnEffect.sendFailed p else ConnEffect.sent p))

/-- Model of `WebRTCConnection.disconnectFrom(peerId)`: close and delete the channel
when one is registered, otherwise do nothing. -/
def WebRTCConnection.disconnectFrom (s : ConnState) (peerId : String) :
    ConnState × List ConnEffect :=
  if memberStr s.connections peerId then
    ({ s with connections := removeStr s.connections peerId },
     [ConnEffect.closeChannel peerId])
  else (s, [])

/-- Model of `WebRTCConnection.disconnect()`: close every channel, clear the map,
destroy the peer when it is non-null and set it to null, and set the state
to DISCONNECTED. -/
def WebRTCConnection.disconnect (s : ConnState) : ConnState × List ConnEffect :=
  ({ connections := [], peerAlive := false, state := ConnectionState.disconnected },
   s.connections.map ConnEffect.closeChannel ++
     (if s.peerAlive then [ConnEffect.destroyPeer] else []))

/-- Model of `WebRTCConnection.getState()`. -/
def WebRTCConnection.getState (s : ConnState) : ConnectionState :=
  s.state

/-- Session events after `initialize()` has resolved: a `connect()` call,
channel `open`/`data`/`close`/`error` listeners, `disconnectFrom()` and
`disconnect()`.  (Nothing in this alphabet runs the `peer.on('open')`
handler — that handler belongs to `initialize` itself.) -/
inductive CEvent where
  | connectCall (remoteId : String)
  | channelOpen (remoteId : String)
  | channelData (remoteId : String)
  | channelClose (remoteId : String)
  | channelError (remoteId : String)
  | disconnectFromCall (remoteId : String)
  | disconnectCall
deriving DecidableEq, Repr

/-- One step of the connection's session: `connect` sets
`state = CONNECTING` (when `this.peer` is non-null; otherwise it rejects
before the assignment); a channel `open` stores the channel but does not
touch `state`; `close` deletes the channel; `data`/`error` leave the state
untouched; `disconnect()` is `WebRTCConnection.disconnect`. -/
def stepConn (s : ConnState) : CEvent → ConnState
  | CEvent.connectCall _ =>
      if s.peerAlive then { s with state := ConnectionState.connecting } else s
  | CEvent.channelOpen p => { s with connections := addStr s.connections p }
  | CEvent.channelData _ => s
  | CEvent.channelClose p => { s with connections := removeStr s.connections p }
  | CEvent.channelError _ => s
  | CEvent.disconnectFromCall p => (WebRTCConnection.disconnectFrom s p).1
  | CEvent.disconnectCall => (WebRTCConnection.disconnect s).1

/-! ### Identity-collision retry (chat.tsx, initializePeer error handler) -/

/-- Model of `const MAX_RETRIES = 3` of chat.tsx. -/
def MAX_RETRIES : Nat := 3

/-- What the error handler does on one id-taken failure. -/
inductive RetryOutcome where
  | scheduleRetry (delayMs : Nat)
  | identityExhausted
deriving DecidableEq, Repr

/-- The `'server-error' / is-taken` branch of the `newPeer.on('error')`
handler: while `retryCount < MAX_RETRIES`, increment it and
`setTimeout(initializePeer, 1000)`; otherwise report the terminal
cannot-create-unique-connection error. -/
def handleIdTakenError (retryCount : Nat) : Nat × RetryOutcome :=
  if retryCount < MAX_RETRIES then (retryCount + 1, RetryOutcome.scheduleRetry 1000)
  else (retryCount, RetryOutcome.identityExhausted)

/-- Outcomes of `n` consecutive id-taken failures starting from a fresh
effect run (`retryCount = 0`); `retryCount` is shared across the retries of
one run. -/
def consecutiveFailures : Nat → Nat × List RetryOutcome
  | 0 => (0, [])
  | n + 1 =>
    let r := consecutiveFailures n
    let r2 := handleIdTakenError r.1
    (r2.1, r.2 ++ [r2.2])

/-! ### Helper lemmas -/

theorem consecutiveFailures_eq (n : Nat) :
    consecutiveFailures n =
      (min n MAX_RETRIES,
       List.replicate (min n MAX_RETRIES) (RetryOutcome.scheduleRetry 1000) ++
         List.replicate (n - MAX_RETRIES) RetryOutcome.identityExhausted) := by
  have hM : MAX_RETRIES = 3 := rfl
  induction n with
  | zero => simp [consecutiveFailures]
  | succ n ih =>
    simp only [consecutiveFailures, ih]
    by_cases h : n < MAX_RETRIES
    · have h1 : min n MAX_RETRIES = n := by rw [hM] at *; omega
      have h2 : min (n + 1) MAX_RETRIES = n + 1 := by rw [hM] at *; omega
      have h3 : n - MAX_RETRIES = 0 := by rw [hM] at *; omega
      have h4 : n + 1 - MAX_RETRIES = 0 := by rw [hM] at *; omega
      simp [handleIdTakenError, h1, h2, h3, h4, h, List.replicate_succ']
    · have h1 : min n MAX_RETRIES = MAX_RETRIES := by rw [hM] at *; omega
      have h2 : min (n + 1) MAX_RETRIES = MAX_RETRIES := by rw [hM] at *; omega
      have h4 : n + 1 - MAX_RETRIES = (n - MAX_RETRIES) + 1 := by rw [hM] at *; omega
      simp [handleIdTakenError, h1, h2, h4, h, List.replicate_succ']

/-! ### Claim theorems -/

/-- Claim C9: a falsy payload, a payload without a truthy `type`, and a
payload with an unrecognized `type` are all dropped by
`Room.handleRoomMessage`: the state (membership mapping included) is
unchanged and no callback and no send happens. -/
theorem c9_theorem (s : RoomState) (fromPeerId ty : String) :
    Room.handleRoomMessage s WireData.nullData fromPeerId = (s, []) ∧
    Room.handleRoomMessage s WireData.untyped fromPeerId = (s, []) ∧
    Room.handleRoomMessage s (WireData.unknownType ty) fromPeerId = (s, []) :=
  ⟨rfl, rfl, rfl⟩

/-- Claim C5: outcomes of `n` consecutive identity-taken failures of
`initializePeer` (`retryCount` starts at 0): the first `min n 3` failures
each schedule a retry of `initializePeer` after a fixed 1000 ms delay, and
every failure from the fourth on surfaces the terminal
cannot-create-unique-connection error instead of a retry; the retry counter
never exceeds the ceiling `MAX_RETRIES = 3`. -/
theorem c5_theorem (n : Nat) :
    (consecutiveFailures n).1 ≤ MAX_RETRIES ∧
    (consecutiveFailures n).2 =
      List.replicate (min n MAX_RETRIES) (RetryOutcome.scheduleRetry 1000) ++
        List.replicate (n - MAX_RETRIES) RetryOutcome.identityExhausted := by
  rw [consecutiveFailures_eq]
  exact ⟨Nat.min_le_right n MAX_RETRIES, rfl⟩

/-- Concrete room used to exhibit the JOIN-rebroadcast bug: local user
`a`, open channels to `b` and `c`. -/
def c2Room : RoomState :=
  { mkRoom ("a") "alice" with conns := ["b", "c"] }

/-- Claim C2 (code bug): on receiving `JOIN{b}` from peer `b`, the room
inserts `b`, fires the join callback — but `broadcastJoinMessage` calls
`connection.broadcast`, which sends to every connected channel, so the
frame's subject `b` also receives the re-broadcast JOIN, contradicting the
exclusion stated by the code's own comments and by the spec. -/
theorem c2_code_bug_eval :
    (mapGet (Room.handleJoinMessage c2Room (UserInfo.mk ("b") "bob")).1.users ("b") =
      some (UserInfo.mk ("b") "bob")) ∧
    Effect.onJoin ("b") "bob" ∈ (Room.handleJoinMessage c2Room (UserInfo.mk ("b") "bob")).2 ∧
    Effect.sendTo ("b") (RoomMsg.join (UserInfo.mk ("b") "bob")) ∈
      (Room.handleJoinMessage c2Room (UserInfo.mk ("b") "bob")).2 := by
  decide

/-- Claim C7: `disconnect()` closes all channels, releases the peer and sets
DISCONNECTED; a second `disconnect()` reaches the same state while closing
nothing, destroying nothing and sending nothing (`disconnect` emits no
send at all, so no duplicate LEAVE broadcast is possible); and
`disconnectFrom` on an unknown peer is a no-op. -/
theorem c7_theorem (s : ConnState) (peerId : String) :
    ((WebRTCConnection.disconnect s).1.connections = [] ∧
      (WebRTCConnection.disconnect s).1.peerAlive = false ∧
      (WebRTCConnection.disconnect s).1.state = ConnectionState.disconnected) ∧
    (WebRTCConnection.disconnect (WebRTCConnection.disconnect s).1).1 =
      (WebRTCConnection.disconnect s).1 ∧
    (WebRTCConnection.disconnect (WebRTCConnection.disconnect s).1).2 = [] ∧
    (∀ e ∈ (WebRTCConnection.disconnect s).2, ∀ q : String,
      e ≠ ConnEffect.sent q ∧ e ≠ ConnEffect.sendFailed q) ∧
    (memberStr s.connections peerId = false →
      WebRTCConnection.disconnectFrom s peerId = (s, [])) := by
  refine ⟨⟨rfl, rfl, rfl⟩, rfl, rfl, ?_, ?_⟩
  · intro e he q
    simp only [WebRTCConnection.disconnect, List.mem_append, List.mem_map] at he
    rcases he with ⟨p, _, rfl⟩ | he
    · exact ⟨fun h => (nomatch h), fun h => (nomatch h)⟩
    · have hd : e = ConnEffect.destroyPeer := by
        by_cases hp : s.peerAlive <;> simp [hp] at he
        exact he
      subst hd
      exact ⟨fun h => (nomatch h), fun h => (nomatch h)⟩
  · intro h
    simp [WebRTCConnection.disconnectFrom, h]

/-- Witness for C7 at a concrete state: `disconnectFrom` on the unknown
peer `z` leaves the state untouched and performs nothing. -/
theorem c7_witness :
    WebRTCConnection.disconnectFrom
        (ConnState.mk ["b"] true ConnectionState.connecting) "z" =
      (ConnState.mk ["b"] true ConnectionState.connecting, []) :=
  (c7_theorem (ConnState.mk ["b"] true ConnectionState.connecting) "z").2.2.2.2
    (by decide)

/-- Claim C8 counterexample: `broadcast` returns `void` — at the same
one-peer state its return value is identical whether the single send
succeeds or throws, while the per-channel outcomes differ, so `broadcast`
does not "return success/failure per channel". -/
theorem c8_counterexample :
    (WebRTCConnection.broadcast (ConnState.mk ["b"] true ConnectionState.connected)
        (fun _ => false)).1 =
      (WebRTCConnection.broadcast (ConnState.mk ["b"] true ConnectionState.connected)
        (fun _ => true)).1 ∧
    (WebRTCConnection.broadcast (ConnState.mk ["b"] true ConnectionState.connected)
        (fun _ => false)).2 ≠
      (WebRTCConnection.broadcast (ConnState.mk ["b"] true ConnectionState.connected)
        (fun _ => true)).2 :=
  ⟨rfl, by decide⟩

/-- Claim C8 (amended): `sendMessage` returns a per-channel boolean — true
exactly when a channel to the peer exists and its send does not throw — and
`broadcast` catches each per-peer failure and continues: it attempts every
registered channel (one outcome per channel, in order) and every
non-failing peer's channel gets the payload; but broadcast itself returns
no per-channel results. -/
theorem c8_theorem (s : ConnState) (fails : String → Bool) (peerId : String) :
    ((WebRTCConnection.sendMessage s fails peerId).1 =
      (memberStr s.connections peerId && !(fails peerId))) ∧
    ((WebRTCConnection.broadcast s fails).2.length = s.connections.length) ∧
    (∀ q : String, ConnEffect.sent q ∈ (WebRTCConnection.broadcast s fails).2 ↔
      (q ∈ s.connections ∧ fails q = false)) := by
  refine ⟨?_, ?_, ?_⟩
  · unfold WebRTCConnection.sendMessage
    by_cases h1 : memberStr s.connections peerId
    · by_cases h2 : fails peerId <;> simp [h1, h2]
    · simp [h1]
  · simp [WebRTCConnection.broadcast]
  · intro q
    simp only [WebRTCConnection.broadcast, List.mem_map]
    constructor
    · rintro ⟨p, hp, heq⟩
      by_cases hf : fails p
      · rw [if_pos hf] at heq
        cases heq
      · rw [if_neg hf] at heq
        cases heq
        simp only [Bool.not_eq_true] at hf
        exact ⟨hp, hf⟩
    · rintro ⟨hq, hfq⟩
      exact ⟨q, hq, by simp [hfq]⟩

theorem stepConn_not_connected (s : ConnState) (e : CEvent)
    (h : s.state ≠ ConnectionState.connected) :
    (stepConn s e).state ≠ ConnectionState.connected := by
  cases e with
  | connectCall r =>
    by_cases hp : s.peerAlive <;> simp [stepConn, hp]
    exact h
  | channelOpen p => exact h
  | channelData p => exact h
  | channelClose p => exact h
  | channelError p => exact h
  | disconnectFromCall p =>
    simp only [stepConn, WebRTCConnection.disconnectFrom]
    by_cases hp : memberStr s.connections p <;> simp [hp] <;> exact h
  | disconnectCall => simp [stepConn, WebRTCConnection.disconnect]

theorem stepConn_keeps_connecting (s : ConnState) (e : CEvent)
    (h : s.state = ConnectionState.connecting) (hne : e ≠ CEvent.disconnectCall) :
    (stepConn s e).state = ConnectionState.connecting := by
  cases e with
  | connectCall r =>
    by_cases hp : s.peerAlive <;> simp [stepConn, hp]
    exact h
  | channelOpen p => exact h
  | channelData p => exact h
  | channelClose p => exact h
  | channelError p => exact h
  | disconnectFromCall p =>
    simp only [stepConn, WebRTCConnection.disconnectFrom]
    by_cases hp : memberStr s.connections p <;> simp [hp] <;> exact h
  | disconnectCall => exact absurd rfl hne

theorem foldl_keeps_connecting (evs : List CEvent) (s : ConnState)
    (h : s.state = ConnectionState.connecting)
    (hno : ∀ e ∈ evs, e ≠ CEvent.disconnectCall) :
    (evs.foldl stepConn s).state = ConnectionState.connecting := by
  induction evs generalizing s with
  | nil => exact h
  | cons e rest ih =>
    exact ih (stepConn s e)
      (stepConn_keeps_connecting s e h (hno e (List.mem_cons_self e rest)))
      (fun x hx => hno x (List.mem_cons_of_mem e hx))

theorem foldl_not_connected (evs : List CEvent) (s : ConnState)
    (h : s.state ≠ ConnectionState.connected) :
    (evs.foldl stepConn s).state ≠ ConnectionState.connected := by
  induction evs generalizing s with
  | nil => exact h
  | cons e rest ih => exact ih (stepConn s e) (stepConn_not_connected s e h)

/-- Claim C10: with the peer initialized (non-null), `connect()` sets the
state to CONNECTING; no later session event — a channel's successful open
included — ever sets it back to CONNECTED, so `getState` reports CONNECTING
for any disconnect-free remainder of the session, until `disconnect()`
finally sets DISCONNECTED. -/
theorem c10_theorem (s : ConnState) (remoteId : String) (evs : List CEvent)
    (hAlive : s.peerAlive = true) :
    WebRTCConnection.getState (stepConn s (CEvent.connectCall remoteId)) =
      ConnectionState.connecting ∧
    ((∀ e ∈ evs, e ≠ CEvent.disconnectCall) →
      WebRTCConnection.getState
          (evs.foldl stepConn (stepConn s (CEvent.connectCall remoteId))) =
        ConnectionState.connecting) ∧
    WebRTCConnection.getState
        (evs.foldl stepConn (stepConn s (CEvent.connectCall remoteId))) ≠
      ConnectionState.connected ∧
    WebRTCConnection.getState (stepConn s CEvent.disconnectCall) =
      ConnectionState.disconnected := by
  have h1 : (stepConn s (CEvent.connectCall remoteId)).state =
      ConnectionState.connecting := by simp [stepConn, hAlive]
  refine ⟨h1, ?_, ?_, rfl⟩
  · intro hno
    exact foldl_keeps_connecting evs _ h1 hno
  · exact foldl_not_connected evs _ (by rw [h1]; intro hc; cases hc)

/-- Witness for C10: a host at CONNECTED calls `connect("h")`; after the
channel opens and delivers data, `getState` still reports CONNECTING. -/
theorem c10_witness :
    WebRTCConnection.getState
        ([CEvent.channelOpen ("h"), CEvent.channelData ("h")].foldl stepConn
          (stepConn (ConnState.mk [] true ConnectionState.connected)
            (CEvent.connectCall ("h")))) = ConnectionState.connecting :=
  ((c10_theorem (ConnState.mk [] true ConnectionState.connected) "h"
      [CEvent.channelOpen ("h"), CEvent.channelData ("h")] rfl).2.1) (by decide)

/-- Iterated `Room.sendMessage` calls (content paired with the `Date.now()`
value of the call); returns the final state and the returned messages in
call order. -/
def runSend : RoomState → List (String × Nat) → RoomState × List Message
  | s, [] => (s, [])
  | s, (c, t) :: rest =>
    let r := Room.sendMessage s c t
    let r2 := runSend r.1 rest
    (r2.1, r.2.1 :: r2.2)

theorem handleUserListMessage_fields (us : List UserInfo) (s : RoomState) :
    (Room.handleUserListMessage s us).1.userInfo = s.userInfo ∧
    (Room.handleUserListMessage s us).1.conns = s.conns ∧
    (Room.handleUserListMessage s us).1.messageIdCounter = s.messageIdCounter ∧
    (Room.handleUserListMessage s us).1.optionsUserId = s.optionsUserId := by
  induction us generalizing s with
  | nil => exact ⟨rfl, rfl, rfl, rfl⟩
  | cons u rest ih =>
    by_cases h : mapHas s.users u.id
    · simp only [Room.handleUserListMessage, if_pos h]
      exact ih s
    · simp only [Room.handleUserListMessage, if_neg h]
      exact ih _

theorem roomEventStep_counter (s : RoomState) (e : RoomEvent) :
    s.messageIdCounter ≤ (roomEventStep s e).messageIdCounter := by
  cases e with
  | frame data fp =>
    cases data with
    | nullData => exact le_refl _
    | untyped => exact le_refl _
    | unknownType ty => exact le_refl _
    | valid m =>
      cases m with
      | join u => exact le_refl _
      | leave uid =>
        simp only [roomEventStep, Room.handleRoomMessage, Room.handleLeaveMessage]
        by_cases h : mapHas s.users uid <;> simp [h]
      | chat mm => exact le_refl _
      | userList us =>
        have h := (handleUserListMessage_fields us s).2.2.1
        simp only [roomEventStep, Room.handleRoomMessage]
        rw [h]
  | channelConnect p => exact le_refl _
  | channelDisconnect p =>
    simp only [roomEventStep, Room.onDisconnectEvent]
    by_cases h : mapHas s.users p <;> simp [h]
  | localSend c t =>
    simp [roomEventStep, Room.sendMessage, Room.getNextMessageId]
  | joinAssigned p =>
    simp only [roomEventStep, Room.joinWithAssignedId]
    by_cases h : p = s.userInfo.id <;> simp [h]

theorem runSend_ids (xs : List (String × Nat)) (s : RoomState) :
    (runSend s xs).2.map Message.id =
      List.range' (s.messageIdCounter + 1) xs.length := by
  induction xs generalizing s with
  | nil => simp [runSend]
  | cons p rest ih =>
    cases p with
    | mk c t =>
      simp only [runSend, List.map, List.length_cons]
      rw [List.range'_succ, ih]
      rfl

/-- Claim C4: `sendMessage(content)` returns a message carrying the next
local sequence number, stamped with the local display name and the current
time, broadcasts exactly that message in a CHAT frame to every connected
channel, and bumps only the counter; a freshly constructed room starts the
counter at 0 so the n-th call of a session returns sequence n (the returned
ids of any call sequence are `counter+1, counter+2, ...`, strictly
increasing); no room event ever decreases the counter and the `join()`
identity fix-up leaves it untouched, so numbering restarts at 1 only with a
fresh construction + `join()`. -/
theorem c4_theorem :
    (∀ (s : RoomState) (content : String) (now : Nat),
      (Room.sendMessage s content now).2.1 =
        Message.mk (s.messageIdCounter + 1) s.userInfo.username content now ∧
      (Room.sendMessage s content now).1 =
        { s with messageIdCounter := s.messageIdCounter + 1 } ∧
      (Room.sendMessage s content now).2.2 =
        s.conns.map (fun p => Effect.sendTo p (RoomMsg.chat
          (Message.mk (s.messageIdCounter + 1) s.userInfo.username content now)))) ∧
    (∀ (userId username : String), (mkRoom userId username).messageIdCounter = 0) ∧
    (∀ (s : RoomState) (xs : List (String × Nat)),
      (runSend s xs).2.map Message.id =
        List.range' (s.messageIdCounter + 1) xs.length ∧
      List.Pairwise (· < ·) ((runSend s xs).2.map Message.id)) ∧
    (∀ (s : RoomState) (e : RoomEvent),
      s.messageIdCounter ≤ (roomEventStep s e).messageIdCounter) ∧
    (∀ (s : RoomState) (peerId : String),
      (Room.joinWithAssignedId s peerId).messageIdCounter = s.messageIdCounter) := by
  refine ⟨?_, ?_, ?_, roomEventStep_counter, ?_⟩
  · intro s content now
    exact ⟨rfl, rfl, rfl⟩
  · intro userId username
    rfl
  · intro s xs
    refine ⟨runSend_ids xs s, ?_⟩
    rw [runSend_ids xs s]
    exact List.pairwise_lt_range' _ _
  · intro s peerId
    simp only [Room.joinWithAssignedId]
    by_cases h : peerId = s.userInfo.id <;> simp [h]

/-- Number of leave-callback invocations in an effect list. -/
def countOnLeave (effs : List Effect) : Nat :=
  effs.countP (fun e => match e with | Effect.onLeave _ => true | _ => false)

theorem countOnLeave_broadcast (l : List String) (fr : RoomMsg) :
    countOnLeave (l.map (fun q => Effect.sendTo q fr)) = 0 := by
  induction l with
  | nil => rfl
  | cons x xs ih =>
    simp only [List.map, countOnLeave, List.countP_cons] at *
    simp [ih]

/-- Claim C6: a channel `disconnect(peerId)` event (the connection's
`close` listener deletes the channel before the room callback runs).  If
`peerId` is a known member: it is removed from the membership mapping, the
leave callback fires exactly once, and LEAVE is broadcast exactly to the
remaining channels — the closed channel itself receives nothing.  If it is
not a known member: the membership mapping is untouched and no callback and
no send happens. -/
theorem c6_theorem (s : RoomState) (peerId : String) :
    (mapHas s.users peerId = true →
      (Room.onDisconnectEvent s peerId).1.users = mapDelete s.users peerId ∧
      (Room.onDisconnectEvent s peerId).2 =
        Effect.onLeave peerId ::
          (removeStr s.conns peerId).map
            (fun q => Effect.sendTo q (RoomMsg.leave peerId)) ∧
      countOnLeave (Room.onDisconnectEvent s peerId).2 = 1 ∧
      (∀ fr : RoomMsg, Effect.sendTo peerId fr ∉ (Room.onDisconnectEvent s peerId).2)) ∧
    (mapHas s.users peerId = false →
      (Room.onDisconnectEvent s peerId).1.users = s.users ∧
      (Room.onDisconnectEvent s peerId).2 = []) := by
  constructor
  · intro h
    have heff : (Room.onDisconnectEvent s peerId).2 =
        Effect.onLeave peerId ::
          (removeStr s.conns peerId).map
            (fun q => Effect.sendTo q (RoomMsg.leave peerId)) := by
      simp [Room.onDisconnectEvent, h, broadcastEffects]
    refine ⟨by simp [Room.onDisconnectEvent, h], heff, ?_, ?_⟩
    · rw [heff]
      simp only [countOnLeave, List.countP_cons] at *
      have h0 := countOnLeave_broadcast (removeStr s.conns peerId) (RoomMsg.leave peerId)
      simp only [countOnLeave] at h0
      simp [h0]
    · intro fr hmem
      rw [heff] at hmem
      rcases List.mem_cons.mp hmem with hc | hc
      · cases hc
      · rcases List.mem_map.mp hc with ⟨q, hq, heq⟩
        have hqp : q = peerId := by
          cases heq
          rfl
        rw [hqp] at hq
        exact absurd rfl ((mem_removeStr s.conns peerId peerId).mp hq).2
  · intro h
    exact ⟨by simp [Room.onDisconnectEvent, h], by simp [Room.onDisconnectEvent, h]⟩

/-- Concrete room for the C6 witness: local user `a`, known member `b`,
channels to `b` and `c`. -/
def c6Room : RoomState :=
  { mkRoom ("a") "alice" with
    conns := ["b", "c"]
    users := [("a", UserInfo.mk ("a") "alice"), ("b", UserInfo.mk ("b") "bob")] }

/-- Witness for C6: closing the channel to the known member `b` removes it,
fires `onLeave("b")` once, and broadcasts LEAVE only to the remaining
channel `c`. -/
theorem c6_witness :
    (Room.onDisconnectEvent c6Room ("b")).1.users = [("a", UserInfo.mk ("a") "alice")] ∧
    (Room.onDisconnectEvent c6Room ("b")).2 =
      [Effect.onLeave ("b"), Effect.sendTo ("c") (RoomMsg.leave ("b"))] := by
  have h := (c6_theorem c6Room ("b")).1 (by decide)
  refine ⟨?_, ?_⟩
  · rw [h.1]
    decide
  · rw [h.2.1]
    decide

theorem mapHas_set {α : Type} (m : List (String × α)) (k k2 : String) (v : α) :
    mapHas (mapSet m k v) k2 = true ↔ (k = k2 ∨ mapHas m k2 = true) := by
  unfold mapHas
  rw [mapGet_set]
  by_cases h : k = k2 <;> simp [h]

theorem userList_has_mono (us : List UserInfo) (s : RoomState) (k : String)
    (h : mapHas s.users k = true) :
    mapHas (Room.handleUserListMessage s us).1.users k = true := by
  induction us generalizing s with
  | nil => exact h
  | cons u rest ih =>
    by_cases hu : mapHas s.users u.id
    · simp only [Room.handleUserListMessage, if_pos hu]
      exact ih s h
    · simp only [Room.handleUserListMessage, if_neg hu]
      exact ih _ ((mapHas_set s.users u.id k u).mpr (Or.inr h))

/-- Events that do not name the local identity in a LEAVE frame or in a
channel-disconnect: the amended C3 invariant is preserved exactly by
these. -/
def localSafe (s : RoomState) : RoomEvent → Bool
  | RoomEvent.frame (WireData.valid (RoomMsg.leave userId)) _ =>
      if userId = s.userInfo.id then false else true
  | RoomEvent.channelDisconnect peerId =>
      if peerId = s.userInfo.id then false else true
  | _ => true

/-- Claim C3 counterexample: directly after construction the invariant
holds, but delivering `LEAVE{a}` — a LEAVE frame whose userId equals the
local identity — deletes the local participant's own entry:
`handleLeaveMessage` has no guard for the local id. -/
theorem c3_counterexample :
    mapHas (mkRoom ("a") "alice").users (mkRoom ("a") "alice").userInfo.id = true ∧
    mapHas (roomEventStep (mkRoom ("a") "alice")
        (RoomEvent.frame (WireData.valid (RoomMsg.leave ("a"))) "b")).users
      (roomEventStep (mkRoom ("a") "alice")
        (RoomEvent.frame (WireData.valid (RoomMsg.leave ("a"))) "b")).userInfo.id = false := by
  decide

/-- Claim C3 (amended): the membership mapping contains the local identity
after construction, and every frame handler and channel event preserves
this — except a LEAVE frame or a channel-disconnect event naming the local
identity itself, which removes the local entry (the code has no guard). -/
theorem c3_theorem :
    (∀ (userId username : String),
      mapHas (mkRoom userId username).users (mkRoom userId username).userInfo.id = true) ∧
    (∀ (s : RoomState) (e : RoomEvent),
      mapHas s.users s.userInfo.id = true → localSafe s e = true →
      mapHas (roomEventStep s e).users (roomEventStep s e).userInfo.id = true) := by
  constructor
  · intro userId username
    simp [mkRoom, mapHas, mapGet]
  · intro s e hinv hsafe
    cases e with
    | frame data fp =>
      cases data with
      | nullData => exact hinv
      | untyped => exact hinv
      | unknownType ty => exact hinv
      | valid m =>
        cases m with
        | join u =>
          simp only [roomEventStep, Room.handleRoomMessage, Room.handleJoinMessage]
          exact (mapHas_set s.users u.id s.userInfo.id u).mpr (Or.inr hinv)
        | leave uid =>
          have hne : ¬ uid = s.userInfo.id := by
            simp only [localSafe] at hsafe
            by_cases h : uid = s.userInfo.id
            · rw [if_pos h] at hsafe
              cases hsafe
            · exact h
          simp only [roomEventStep, Room.handleRoomMessage, Room.handleLeaveMessage]
          split
          · simp [mapHas, mapGet_delete, hne]
            exact hinv
          · exact hinv
        | chat mm => exact hinv
        | userList us =>
          simp only [roomEventStep, Room.handleRoomMessage]
          rw [(handleUserListMessage_fields us s).1]
          exact userList_has_mono us s s.userInfo.id hinv
    | channelConnect p => exact hinv
    | channelDisconnect p =>
      have hne : ¬ p = s.userInfo.id := by
        simp only [localSafe] at hsafe
        by_cases h : p = s.userInfo.id
        · rw [if_pos h] at hsafe
          cases hsafe
        · exact h
      simp only [roomEventStep, Room.onDisconnectEvent]
      split
      · simp [mapHas, mapGet_delete, hne]
        exact hinv
      · exact hinv
    | localSend c t => exact hinv
    | joinAssigned p =>
      simp only [roomEventStep, Room.joinWithAssignedId]
      by_cases h : p = s.userInfo.id
      · simp only [if_pos h]
        exact hinv
      · simp only [if_neg h]
        unfold mapHas
        rw [mapGet_set]
        simp

/-- Witness for C3: a LEAVE frame for the remote peer `b` (not the local
identity) preserves the invariant on the freshly constructed room. -/
theorem c3_witness :
    mapHas (roomEventStep (mkRoom ("a") "alice")
        (RoomEvent.frame (WireData.valid (RoomMsg.leave ("b"))) "b")).users
      (roomEventStep (mkRoom ("a") "alice")
        (RoomEvent.frame (WireData.valid (RoomMsg.leave ("b"))) "b")).userInfo.id = true :=
  c3_theorem.2 (mkRoom ("a") "alice")
    (RoomEvent.frame (WireData.valid (RoomMsg.leave ("b"))) "b")
    (by decide) (by decide)

/-- The (id, displayName) pairs announced by one frame: the `user` of a
JOIN, the `users` of a USER_LIST, nothing otherwise. -/
def announced : RoomMsg → List UserInfo
  | RoomMsg.join u => [u]
  | RoomMsg.userList us => us
  | RoomMsg.leave _ => []
  | RoomMsg.chat _ => []

/-- Whether a frame is one of the two membership-announcing kinds. -/
def isMembershipFrame : RoomMsg → Bool
  | RoomMsg.join _ => true
  | RoomMsg.userList _ => true
  | RoomMsg.leave _ => false
  | RoomMsg.chat _ => false

/-- Deliver a sequence of frames through `Room.handleRoomMessage`, keeping
the state (the sender identity does not influence membership). -/
def applyFrames (s : RoomState) (frames : List RoomMsg) : RoomState :=
  frames.foldl (fun t fr => (Room.handleRoomMessage t (WireData.valid fr) "peer").1) s

/-- All entries of a membership map agree with the naming function `f`
(entry at key `k` is exactly `{id := k, username := f k}`). -/
def consistentMap (f : String → String) (m : List (String × UserInfo)) : Prop :=
  ∀ p ∈ m, p.2 = UserInfo.mk p.1 (f p.1)

/-- Every user announced by any of the frames carries the displayName the
naming function `f` assigns to its id. -/
def consistentFrames (f : String → String) (frames : List RoomMsg) : Prop :=
  ∀ fr ∈ frames, ∀ u ∈ announced fr, u = UserInfo.mk u.id (f u.id)

/-- The id `k` is announced by some frame of the list. -/
def announcedIn (frames : List RoomMsg) (k : String) : Prop :=
  ∃ fr ∈ frames, ∃ u ∈ announced fr, u.id = k

instance announcedInDec (frames : List RoomMsg) (k : String) :
    Decidable (announcedIn frames k) := by
  unfold announcedIn
  infer_instance

theorem mem_mapSet {α : Type} (m : List (String × α)) (k : String) (v : α)
    (p : String × α) (h : p ∈ mapSet m k v) : p = (k, v) ∨ p ∈ m := by
  induction m with
  | nil => simpa [mapSet] using h
  | cons q rest ih =>
    by_cases hq : q.1 = k
    · simp only [mapSet, if_pos hq, List.mem_cons] at h
      rcases h with h | h
      · exact Or.inl h
      · exact Or.inr (List.mem_cons_of_mem q h)
    · simp only [mapSet, if_neg hq, List.mem_cons] at h
      rcases h with h | h
      · exact Or.inr (by rw [h]; exact List.mem_cons_self q rest)
      · rcases ih h with h2 | h2
        · exact Or.inl h2
        · exact Or.inr (List.mem_cons_of_mem q h2)

theorem consistentMap_get (f : String → String) (m : List (String × UserInfo))
    (hm : consistentMap f m) (k : String) :
    mapGet m k = if mapHas m k = true then some (UserInfo.mk k (f k)) else none := by
  cases h : mapGet m k with
  | none =>
    have hh : mapHas m k = false := by simp [mapHas, h]
    simp [hh]
  | some v =>
    have hh : mapHas m k = true := by simp [mapHas, h]
    have hv := hm (k, v) (mapGet_mem m k v h)
    simp only at hv
    simp [hh, hv]

theorem consistentMap_set (f : String → String) (m : List (String × UserInfo))
    (hm : consistentMap f m) (u : UserInfo) (hu : u = UserInfo.mk u.id (f u.id)) :
    consistentMap f (mapSet m u.id u) := by
  intro p hp
  rcases mem_mapSet m u.id u p hp with h | h
  · rw [h]
    exact hu
  · exact hm p h

theorem userList_union (us : List UserInfo) (s : RoomState) (f : String → String)
    (hm : consistentMap f s.users)
    (hus : ∀ u ∈ us, u = UserInfo.mk u.id (f u.id)) :
    consistentMap f (Room.handleUserListMessage s us).1.users ∧
    (∀ k, mapHas (Room.handleUserListMessage s us).1.users k = true ↔
      (mapHas s.users k = true ∨ ∃ u ∈ us, u.id = k)) := by
  induction us generalizing s with
  | nil =>
    refine ⟨hm, fun k => ?_⟩
    simp [Room.handleUserListMessage]
  | cons u rest ih =>
    have hu := hus u (List.mem_cons_self u rest)
    have hrest : ∀ w ∈ rest, w = UserInfo.mk w.id (f w.id) :=
      fun w hw => hus w (List.mem_cons_of_mem u hw)
    have hcons : ∀ k : String,
        (∃ w ∈ u :: rest, w.id = k) ↔ (u.id = k ∨ ∃ w ∈ rest, w.id = k) := by
      intro k
      simp [List.mem_cons, or_and_right, exists_or]
    by_cases h : mapHas s.users u.id
    · simp only [Room.handleUserListMessage, if_pos h]
      rcases ih s hm hrest with ⟨hc, hiff⟩
      refine ⟨hc, fun k => ?_⟩
      rw [hiff k, hcons k]
      constructor
      · rintro (hk | hr)
        · exact Or.inl hk
        · exact Or.inr (Or.inr hr)
      · rintro (hk | h1 | h1)
        · exact Or.inl hk
        · subst h1
          exact Or.inl h
        · exact Or.inr h1
    · simp only [Room.handleUserListMessage, if_neg h]
      have hm2 : consistentMap f (mapSet s.users u.id u) :=
        consistentMap_set f s.users hm u hu
      rcases ih { s with users := mapSet s.users u.id u } hm2 hrest with ⟨hc, hiff⟩
      refine ⟨hc, fun k => ?_⟩
      rw [hiff k, hcons k]
      have hset := mapHas_set s.users u.id k u
      constructor
      · rintro (hk | hr)
        · rcases hset.mp hk with h1 | h1
          · exact Or.inr (Or.inl h1)
          · exact Or.inl h1
        · exact Or.inr (Or.inr hr)
      · rintro (hk | h1 | h1)
        · exact Or.inl (hset.mpr (Or.inr hk))
        · exact Or.inl (hset.mpr (Or.inl h1))
        · exact Or.inr h1

theorem announcedIn_cons (fr : RoomMsg) (frames : List RoomMsg) (k : String) :
    announcedIn (fr :: frames) k ↔
      ((∃ u ∈ announced fr, u.id = k) ∨ announcedIn frames k) := by
  simp [announcedIn, List.mem_cons, or_and_right, exists_or]

theorem frames_union (frames : List RoomMsg) (s : RoomState) (f : String → String)
    (hm : consistentMap f s.users) (hfr : consistentFrames f frames)
    (hmem : frames.all isMembershipFrame = true) :
    consistentMap f (applyFrames s frames).users ∧
    (∀ k, mapHas (applyFrames s frames).users k = true ↔
      (mapHas s.users k = true ∨ announcedIn frames k)) := by
  induction frames generalizing s with
  | nil =>
    refine ⟨hm, fun k => ?_⟩
    simp [applyFrames, announcedIn]
  | cons fr frames ih =>
    have hfr1 : ∀ u ∈ announced fr, u = UserInfo.mk u.id (f u.id) :=
      hfr fr (List.mem_cons_self fr frames)
    have hfr2 : consistentFrames f frames :=
      fun x hx => hfr x (List.mem_cons_of_mem fr hx)
    have hmem1 : isMembershipFrame fr = true := by
      have := (List.all_eq_true.mp hmem) fr (List.mem_cons_self fr frames)
      exact this
    have hmem2 : frames.all isMembershipFrame = true := by
      rw [List.all_eq_true]
      intro x hx
      exact (List.all_eq_true.mp hmem) x (List.mem_cons_of_mem fr hx)
    cases fr with
    | leave uid => cases hmem1
    | chat mm => cases hmem1
    | join u =>
      have hu : u = UserInfo.mk u.id (f u.id) :=
        hfr1 u (List.mem_cons_self u [])
      have hm2 : consistentMap f (mapSet s.users u.id u) :=
        consistentMap_set f s.users hm u hu
      rcases ih { s with users := mapSet s.users u.id u } hm2 hfr2 hmem2 with ⟨hc, hiff⟩
      have happ2 : applyFrames s (RoomMsg.join u :: frames) =
          applyFrames { s with users := mapSet s.users u.id u } frames := rfl
      refine ⟨happ2 ▸ hc, fun k => ?_⟩
      rw [happ2, hiff k, announcedIn_cons]
      have hset := mapHas_set s.users u.id k u
      simp only [announced]
      constructor
      · rintro (hk | hr)
        · rcases hset.mp hk with h1 | h1
          · exact Or.inr (Or.inl ⟨u, List.mem_cons_self u [], h1⟩)
          · exact Or.inl h1
        · exact Or.inr (Or.inr hr)
      · rintro (hk | ⟨w, hw, hwk⟩ | h1)
        · exact Or.inl (hset.mpr (Or.inr hk))
        · rcases List.mem_singleton.mp hw with rfl
          exact Or.inl (hset.mpr (Or.inl hwk))
        · exact Or.inr h1
    | userList us =>
      have hul := userList_union us s f hm hfr1
      rcases ih (Room.handleUserListMessage s us).1 hul.1 hfr2 hmem2 with ⟨hc, hiff⟩
      have happ2 : applyFrames s (RoomMsg.userList us :: frames) =
          applyFrames (Room.handleUserListMessage s us).1 frames := rfl
      refine ⟨happ2 ▸ hc, fun k => ?_⟩
      rw [happ2, hiff k, announcedIn_cons, hul.2 k]
      simp only [announced]
      exact or_assoc

theorem userList_get_known (us : List UserInfo) (t : RoomState) (k : String)
    (h : mapHas t.users k = true) :
    mapGet (Room.handleUserListMessage t us).1.users k = mapGet t.users k := by
  induction us generalizing t with
  | nil => rfl
  | cons u rest ih =>
    by_cases hu : mapHas t.users u.id
    · simp only [Room.handleUserListMessage, if_pos hu]
      exact ih t h
    · simp only [Room.handleUserListMessage, if_neg hu]
      have hne : ¬ u.id = k := by
        intro he
        rw [he] at hu
        exact hu h
      have h2 : mapHas (mapSet t.users u.id u) k = true :=
        (mapHas_set t.users u.id k u).mpr (Or.inr h)
      rw [ih { t with users := mapSet t.users u.id u } h2]
      show mapGet (mapSet t.users u.id u) k = mapGet t.users k
      rw [mapGet_set]
      exact if_neg hne

theorem userList_inserts (us : List UserInfo) (t : RoomState) (u : UserInfo)
    (hu : u ∈ us) (h : mapHas t.users u.id = false) :
    mapHas (Room.handleUserListMessage t us).1.users u.id = true ∧
    ∃ w ∈ us, w.id = u.id ∧
      Effect.onJoin w.id w.username ∈ (Room.handleUserListMessage t us).2 := by
  induction us generalizing t with
  | nil => cases hu
  | cons v rest ih =>
    by_cases hv : mapHas t.users v.id
    · have hur : u ∈ rest := by
        rcases List.mem_cons.mp hu with h2 | h2
        · exfalso
          rw [h2] at h
          rw [h] at hv
          cases hv
        · exact h2
      simp only [Room.handleUserListMessage, if_pos hv]
      rcases ih t hur h with ⟨h1, w, hw, hwk, hmem⟩
      exact ⟨h1, w, List.mem_cons_of_mem v hw, hwk, hmem⟩
    · simp only [Room.handleUserListMessage, if_neg hv]
      by_cases hvu : v.id = u.id
      · have h2 : mapHas (mapSet t.users v.id v) u.id = true :=
          (mapHas_set t.users v.id u.id v).mpr (Or.inl hvu)
        exact ⟨userList_has_mono rest _ u.id h2, v, List.mem_cons_self v rest, hvu,
          List.mem_cons_self _ _⟩
      · have hur : u ∈ rest := by
          rcases List.mem_cons.mp hu with h2 | h2
          · exfalso
            rw [h2] at hvu
            exact hvu rfl
          · exact h2
        have h2 : mapHas (mapSet t.users v.id v) u.id = false := by
          cases hcase : mapHas (mapSet t.users v.id v) u.id with
          | false => rfl
          | true =>
            rcases (mapHas_set t.users v.id u.id v).mp hcase with h3 | h3
            · exact absurd h3 hvu
            · rw [h3] at h
              cases h
        rcases ih { t with users := mapSet t.users v.id v } hur h2 with
          ⟨h1, w, hw, hwk, hmem⟩
        exact ⟨h1, w, List.mem_cons_of_mem v hw, hwk, List.mem_cons_of_mem _ hmem⟩

/-- Claim C1 (amended): applying a USER_LIST inserts each listed user whose
id is not already a key (and fires the join callback for it), never
overwrites an already-known member and never removes members absent from
the list; and — provided every announcement of a given id carries one and
the same displayName (hypothesis `f`) — any interleaving of JOIN/USER_LIST
frames yields the membership mapping `initial ∪ announced` pointwise, a
result depending only on the set of announced ids, hence invariant under
permutation of the delivery order.  (Without the same-name proviso the
result is order-dependent, because JOIN overwrites and USER_LIST keeps the
first-received name: see the counterexample.) -/
theorem c1_theorem :
    (∀ (t : RoomState) (us : List UserInfo) (k : String),
      mapHas t.users k = true →
      mapGet (Room.handleUserListMessage t us).1.users k = mapGet t.users k) ∧
    (∀ (t : RoomState) (us : List UserInfo) (u : UserInfo),
      u ∈ us → mapHas t.users u.id = false →
      mapHas (Room.handleUserListMessage t us).1.users u.id = true ∧
      ∃ w ∈ us, w.id = u.id ∧
        Effect.onJoin w.id w.username ∈ (Room.handleUserListMessage t us).2) ∧
    (∀ (f : String → String) (s : RoomState) (frames : List RoomMsg),
      consistentMap f s.users → consistentFrames f frames →
      frames.all isMembershipFrame = true →
      (∀ k, mapGet (applyFrames s frames).users k =
        if mapHas s.users k = true ∨ announcedIn frames k
        then some (UserInfo.mk k (f k)) else none) ∧
      (∀ frames2 : List RoomMsg, frames2.Perm frames →
        consistentFrames f frames2 →
        ∀ k, mapGet (applyFrames s frames2).users k =
          mapGet (applyFrames s frames).users k)) := by
  refine ⟨fun t us k h => userList_get_known us t k h,
          fun t us u hu h => userList_inserts us t u hu h, ?_⟩
  intro f s frames hm hfr hmem
  have hchar : ∀ fs : List RoomMsg, consistentFrames f fs →
      fs.all isMembershipFrame = true →
      ∀ k, mapGet (applyFrames s fs).users k =
        if mapHas s.users k = true ∨ announcedIn fs k
        then some (UserInfo.mk k (f k)) else none := by
    intro fs hfr2 hmem2 k
    rcases frames_union fs s f hm hfr2 hmem2 with ⟨hc, hiff⟩
    rw [consistentMap_get f _ hc k]
    exact if_congr (hiff k) rfl rfl
  refine ⟨hchar frames hfr hmem, ?_⟩
  intro frames2 hperm hfr2 k
  have hmem2 : frames2.all isMembershipFrame = true := by
    rw [List.all_eq_true]
    intro x hx
    exact (List.all_eq_true.mp hmem) x (hperm.mem_iff.mp hx)
  have hann : announcedIn frames2 k ↔ announcedIn frames k := by
    unfold announcedIn
    constructor
    · rintro ⟨fr, hfrm, hu⟩
      exact ⟨fr, hperm.mem_iff.mp hfrm, hu⟩
    · rintro ⟨fr, hfrm, hu⟩
      exact ⟨fr, hperm.mem_iff.mpr hfrm, hu⟩
  rw [hchar frames2 hfr2 hmem2 k, hchar frames hfr hmem k]
  exact if_congr (or_congr Iff.rfl hann) rfl rfl

/-- Claim C1 counterexample: two USER_LIST frames announcing the same id
`b` with different displayNames yield different membership mappings under
the two delivery orders (USER_LIST keeps the first-received name), so the
result is not independent of delivery order and cannot equal the "union of
all announced pairs" in both orders. -/
theorem c1_counterexample :
    mapGet (applyFrames (mkRoom ("a") "alice")
        [RoomMsg.userList [UserInfo.mk ("b") "x"],
         RoomMsg.userList [UserInfo.mk ("b") "y"]]).users ("b") ≠
      mapGet (applyFrames (mkRoom ("a") "alice")
        [RoomMsg.userList [UserInfo.mk ("b") "y"],
         RoomMsg.userList [UserInfo.mk ("b") "x"]]).users ("b") := by
  decide

/-- Witness for C1 at a concrete input: local user `a`, a USER_LIST
announcing `b` followed by a JOIN of the same `b`; the union
characterization yields the entry for `b`. -/
theorem c1_witness :
    mapGet (applyFrames (mkRoom ("a") "alice")
        [RoomMsg.userList [UserInfo.mk ("b") "bob"],
         RoomMsg.join (UserInfo.mk ("b") "bob")]).users ("b") =
      some (UserInfo.mk ("b") "bob") := by
  have h := ((c1_theorem.2.2 (fun k => if k = "a" then ("alice") else ("bob"))
      (mkRoom ("a") "alice")
      [RoomMsg.userList [UserInfo.mk ("b") "bob"],
       RoomMsg.join (UserInfo.mk ("b") "bob")]
      (by unfold consistentMap; decide) (by unfold consistentFrames; decide)
      (by decide)).1) "b"
  rw [h, if_pos (Or.inr (by decide))]
  decide
